import Mathlib

/-!
Verification of the DQN training script (`src/dqn.py`) of the
Atlinx/LearningML repository.  The script trains a CartPole policy by
Deep Q-Learning: an epsilon-greedy exploration schedule, a bounded FIFO
experience-replay buffer, an online and a target action-value network,
Bellman-target regression updates, periodic target synchronization, and
a convergence check that switches the loop into a pure evaluation mode.

The numeric code (float32 tensors) is embedded over the real numbers.
Library collaborator functions (`collections.deque`, `random.sample`,
`torch.argmax`, `load_state_dict`) are embedded according to their
documented semantics; the autograd/optimizer kernels, which the repo
treats as an external collaborator, are kept abstract.
-/

namespace DQN

/-! ### Constants (lines 64-79 of dqn.py) -/

/-- batches per cycle in training stage (line 64). -/
def batch_size : ℕ := 32

/-- Bellman discount factor gamma (line 65). -/
noncomputable def gamma : ℝ := 0.99

/-- epsilon_start = 1 (line 71). -/
noncomputable def epsilon_start : ℝ := 1

/-- epsilon_end = 0.001 (line 72). -/
noncomputable def epsilon_end : ℝ := 0.001

/-- epsilon_decayrate = 0.003 (line 73). -/
noncomputable def epsilon_decayrate : ℝ := 0.003

/-- Replay memory capacity: `deque(maxlen=50000)` (line 78). -/
def replay_capacity : ℕ := 50000

/-- Target network synchronization interval (line 150). -/
def sync_interval : ℕ := 1000

/-- Size bound of the episode-duration window (lines 156-157). -/
def window_size : ℕ := 5

/-- Convergence threshold on the rolling average (line 160). -/
noncomputable def convergence_threshold : ℝ := 499

/-! ### Epsilon schedule (lines 56-61) -/

/-- `decay(eps_start, eps_end, eps_decayrate, current_step)` of line 61:
`eps_end + (eps_start - eps_end) * np.exp(-1 * eps_decayrate * current_step)`. -/
noncomputable def decay (eps_start eps_end eps_decayrate : ℝ) (current_step : ℕ) : ℝ :=
  eps_end + (eps_start - eps_end) * Real.exp (-1 * eps_decayrate * (current_step : ℝ))

/-! ### Replay buffer: `collections.deque` with `maxlen` (lines 78, 101).
`dq_append` embeds the documented `deque.append` behaviour: append on the
right; when the deque is full the leftmost (oldest) item is discarded. -/

def dq_append {α : Type} (C : ℕ) (buf : List α) (x : α) : List α :=
  if buf.length < C then buf ++ [x] else buf.tail ++ [x]

/-! ### The action-value network (lines 22-53).
`Network` holds the parameters of `nn.Sequential(Linear(4,64), Tanh(),
Linear(64,2))`; `forward` is its real-valued semantics (the float32
tensor kernels are embedded over `ℝ`). -/

/-- Dot product of two weight/input vectors (the `nn.Linear` kernel). -/
noncomputable def dot (xs ys : List ℝ) : ℝ :=
  (List.zipWith (fun a b => a * b) xs ys).sum

/-- One `nn.Linear` layer: rows of the weight matrix paired with the
bias entries; output `i` is `w_i · x + b_i`. -/
noncomputable def linear (w : List (List ℝ)) (b : List ℝ) (x : List ℝ) : List ℝ :=
  List.zipWith (fun row bi => dot row x + bi) w b

/-- Parameters of the `Network` module of lines 28-34: weights and
biases of the two `nn.Linear` layers. -/
structure Network where
  w1 : List (List ℝ)
  b1 : List ℝ
  w2 : List (List ℝ)
  b2 : List ℝ

/-- `Network.forward` (lines 37-39): `Linear(4,64)`, then `Tanh`, then
`Linear(64,2)`, producing the q-value vector for a state. -/
noncomputable def Network.forward (p : Network) (t : List ℝ) : List ℝ :=
  linear p.w2 p.b2 ((linear p.w1 p.b1 t).map Real.tanh)

/-- Maximum entry of a q-value row (`torch.max(dim=1)`, line 135; also
the reduction inside `torch.argmax`).  Empty rows do not occur. -/
noncomputable def listMax : List ℝ → ℝ
  | [] => 0
  | x :: xs => xs.foldl max x

/-- First index at which a value occurs in a row. -/
noncomputable def firstIdxOf (v : ℝ) : List ℝ → ℕ
  | [] => 0
  | x :: xs => if x = v then 0 else firstIdxOf v xs + 1

/-- `torch.argmax` (line 52), per its documented semantics: the index of
the first occurrence of the maximal value. -/
noncomputable def torch_argmax (l : List ℝ) : ℕ :=
  firstIdxOf (listMax l) l

/-- `Network.act` (lines 41-53): evaluate the network on the state and
return the argmax action index. -/
noncomputable def Network.act (p : Network) (state : List ℝ) : ℕ :=
  torch_argmax (p.forward state)

/-- A concrete network whose two outputs tie (both layers degenerate,
output `[1, 1]`), used as witness input for C8. -/
noncomputable def tieNet : Network :=
  ⟨[], [], [[], []], [1, 1]⟩

/-! ### Transitions and the Bellman-target computation (lines 100, 109-139) -/

/-- One experience tuple `(state, action, reward, done, s1)` (line 100). -/
structure Transition where
  state : List ℝ
  action : ℕ
  reward : ℝ
  done : Bool
  next_state : List ℝ

noncomputable instance : Inhabited Transition :=
  ⟨⟨[], 0, 0, false, []⟩⟩

/-- `torch.as_tensor` of the boolean done column (line 118): 1 for a
terminal transition, 0 otherwise. -/
noncomputable def doneFlag (d : Bool) : ℝ := if d then 1 else 0

def zipWith3 {α β γ δ : Type} (f : α → β → γ → δ) : List α → List β → List γ → List δ
  | a :: as, b :: bs, c :: cs => f a b c :: zipWith3 f as bs cs
  | _, _, _ => []

/-- Row maxima of the target network on the batch of next states
(lines 132-135: `target_net(new_states_t).max(dim=1)`). -/
noncomputable def target_q_values (tn : Network) (new_states : List (List ℝ)) : List ℝ :=
  new_states.map fun ns => listMax (tn.forward ns)

/-- The Bellman regression targets of line 139:
`rewards_t + gamma * (1 - dones_t) * target_q_values`, computed
elementwise over the batch columns. -/
noncomputable def optimal_q_values (rewards : List ℝ) (dones : List Bool)
    (tq : List ℝ) : List ℝ :=
  zipWith3 (fun r d q => r + gamma * (1 - doneFlag d) * q) rewards dones tq

/-- The whole target pipeline on a sampled batch: split the experience
tuples into columns (lines 109-119) and apply lines 132-139. -/
noncomputable def bellman_targets (tn : Network) (experiences : List Transition) : List ℝ :=
  optimal_q_values (experiences.map fun e => e.reward)
    (experiences.map fun e => e.done)
    (target_q_values tn (experiences.map fun e => e.next_state))

/-- A terminal transition with reward 1, witness input for C1. -/
noncomputable def terminalTransition : Transition :=
  ⟨[0, 0, 0, 0], 0, 1, true, [0, 0, 0, 0]⟩

/-! ### `random.sample` (line 107).
`random.sample(population, k)` draws `k` distinct elements (distinct
buffer positions) uniformly without replacement.  The random choice is
abstracted by the list of chosen positions; `sample` maps them to the
stored entries. -/

def sample {α : Type} (population : List α) (idxs : List ℕ) : List α :=
  idxs.filterMap fun i => population[i]?

/-! ### Autograd dependency tracking of the update (lines 122-148).
The source evaluates every tensor inside the default gradient-recording
context: there is no `torch.no_grad()` and no `.detach()` anywhere in
`dqn.py`.  Each definition below records, straight from the quoted
source line, which network's parameters the named tensor depends on
inside the autograd graph; `loss.backward()` (line 147) computes
gradients for exactly the parameters the loss depends on, and
`optimizer.step()` (line 148) applies updates to exactly the parameters
the optimizer was constructed with (line 76). -/

inductive NetRef
  | online_net
  | target_net
  deriving DecidableEq

/-- `q_values = online_net(states_t)` (line 122). -/
def q_values_deps : Finset NetRef := {NetRef.online_net}

/-- `action_q_values = torch.gather(q_values, ...)` (line 129); `gather`
keeps the graph of its input. -/
def action_q_values_deps : Finset NetRef := q_values_deps

/-- `target_q_output = target_net(new_states_t)` (line 132): the target
network is applied directly, with gradient recording on — the source
has no `no_grad` block and no `detach` call. -/
def target_q_output_deps : Finset NetRef := {NetRef.target_net}

/-- `target_q_values = target_q_output.max(dim=1)[0]` (line 135). -/
def target_q_values_deps : Finset NetRef := target_q_output_deps

/-- `optimal_q_values = rewards_t + gamma * (1 - dones_t) *
target_q_values` (line 139); `rewards_t` and `dones_t` are constants
built by `torch.as_tensor` from numpy arrays (lines 117-118). -/
def optimal_q_values_deps : Finset NetRef := target_q_values_deps

/-- `loss = smooth_l1_loss(action_q_values, optimal_q_values)`
(line 143): the loss depends on both of its arguments. -/
def loss_deps : Finset NetRef := action_q_values_deps ∪ optimal_q_values_deps

/-- `loss.backward()` (line 147) populates gradients for every
parameter the loss depends on. -/
def backward_grad_nets : Finset NetRef := loss_deps

/-- `optimizer = torch.optim.Adam(online_net.parameters(), lr=5e-4)`
(line 76): the optimizer holds the online network's parameters only, so
`optimizer.step()` (line 148) mutates only those. -/
def optimizer_nets : Finset NetRef := {NetRef.online_net}

/-! ### The control loop (lines 81-171) as a step machine.
One `trainStep` is one iteration of the inner `for step in
itertools.count()` loop (lines 85-171) while training; one `evalStep` is
one iteration of the `while True` evaluation loop (lines 164-170).  The
environment, the two random draws and the autograd/Adam kernel (an
external collaborator, per the spec's scope) are supplied by a
`StepOracle`. -/

inductive Mode
  | training
  | evaluating
  deriving DecidableEq

/-- The mutable training state of the script: the step counter
(line 63), both networks (lines 67-68), the replay memory (line 78), the
episode-duration window (line 79), the control-loop mode, the current
observation and the in-episode step index of `itertools.count()`. -/
structure TrainerState where
  eps_count : ℕ
  online : Network
  target : Network
  replay_memory : List Transition
  avg_window_steps : List ℕ
  mode : Mode
  state : List ℝ
  step : ℕ

/-- External inputs of one loop iteration: the draw of `random.random()`
(line 90), the draw of `env.action_space.sample()` (line 92), the
environment response `(s1, reward, done)` to the submitted action
(lines 97-98), the state produced by `env.reset()` on the next episode
start, the buffer positions chosen by `random.sample` (line 107), and
the parameter update performed by `backward` plus `optimizer.step`
(lines 146-148), abstract as the numeric kernels are out of scope. -/
structure StepOracle where
  u : ℝ
  randomAction : ℕ
  envStep : ℕ → List ℝ × ℝ × Bool
  resetState : List ℝ
  sampleIdxs : List ℕ
  gradUpdate : Network → List Transition → Network → Network

/-- `np.average` over the duration window (line 158). -/
noncomputable def listAvg (l : List ℕ) : ℝ :=
  (l.map fun n => (n : ℝ)).sum / l.length

/-- Lines 155-157: append the finished episode's step count;
`popleft` when the window holds more than 5 entries. -/
def pushWindow (w : List ℕ) (x : ℕ) : List ℕ :=
  if window_size < (w ++ [x]).length then (w ++ [x]).tail else w ++ [x]

/-- The epsilon of lines 86-87: `eps_count` is incremented first, then
`decay` is evaluated at the incremented counter. -/
noncomputable def trainStepEpsilon (s : TrainerState) : ℝ :=
  decay epsilon_start epsilon_end epsilon_decayrate (s.eps_count + 1)

/-- The action of lines 90-95: explore when `random.random() < epsilon`,
otherwise exploit greedily. -/
noncomputable def chosenAction (o : StepOracle) (s : TrainerState) : ℕ :=
  if o.u < trainStepEpsilon s then o.randomAction else s.online.act s.state

/-- The environment response `(s1, reward, done)` of lines 97-98. -/
noncomputable def envResult (o : StepOracle) (s : TrainerState) : List ℝ × ℝ × Bool :=
  o.envStep (chosenAction o s)

/-- The replay memory after appending the experience tuple of
lines 100-101. -/
noncomputable def appendedMemory (o : StepOracle) (s : TrainerState) : List Transition :=
  dq_append replay_capacity s.replay_memory
    ⟨s.state, chosenAction o s, (envResult o s).2.1, (envResult o s).2.2,
      (envResult o s).1⟩

/-- One training-mode iteration of the inner loop (lines 86-171):
increment the counter, pick the action, append the experience, train the
online network when the buffer holds at least a batch (lines 106-148),
synchronize the target every `sync_interval` counter values
(lines 150-152), and handle episode termination (lines 154-171) —
recording the duration, either entering the evaluation mode when the
rolling average reaches the threshold or starting the next episode. -/
noncomputable def trainStep (o : StepOracle) (s : TrainerState) : TrainerState :=
  let c := s.eps_count + 1
  let mem := appendedMemory o s
  let online1 := if batch_size ≤ mem.length
    then o.gradUpdate s.online (sample mem o.sampleIdxs) s.target
    else s.online
  let target1 := if c % sync_interval = 0 then online1 else s.target
  if (envResult o s).2.2 then
    let win := pushWindow s.avg_window_steps s.step
    if convergence_threshold ≤ listAvg win then
      { eps_count := c, online := online1, target := target1, replay_memory := mem,
        avg_window_steps := win, mode := Mode.evaluating, state := o.resetState,
        step := s.step }
    else
      { eps_count := c, online := online1, target := target1, replay_memory := mem,
        avg_window_steps := win, mode := Mode.training, state := o.resetState,
        step := 0 }
  else
    { eps_count := c, online := online1, target := target1, replay_memory := mem,
      avg_window_steps := s.avg_window_steps, mode := Mode.training,
      state := (envResult o s).1, step := s.step + 1 }

/-- One iteration of the evaluation loop (lines 164-170): act greedily
with the online network, step the environment, reset when done.  Nothing
else of the state is touched — no counter increment, no buffer append,
no training, no synchronization. -/
noncomputable def evalStep (o : StepOracle) (s : TrainerState) : TrainerState :=
  { s with state :=
      if (o.envStep (s.online.act s.state)).2.2 then o.resetState
      else (o.envStep (s.online.act s.state)).1 }

/-- Dispatch on the control-loop mode. -/
noncomputable def trainerStep (o : StepOracle) (s : TrainerState) : TrainerState :=
  match s.mode with
  | Mode.training => trainStep o s
  | Mode.evaluating => evalStep o s

/-- Run `n` iterations against the oracle stream `os`. -/
noncomputable def iterateSteps (os : ℕ → StepOracle) : ℕ → TrainerState → TrainerState
  | 0, s => s
  | n + 1, s => trainerStep (os n) (iterateSteps os n s)

/-- The initial state of lines 63-82: both networks are freshly
constructed (lines 67-68) and `target_net.load_state_dict(
online_net.state_dict())` (line 69) overwrites the target's random
initialization `target_init` with an exact copy of the online
parameters. -/
noncomputable def initState (online_init target_init : Network) (s0 : List ℝ) :
    TrainerState :=
  { eps_count := 0, online := online_init, target := online_init,
    replay_memory := [], avg_window_steps := [], mode := Mode.training,
    state := s0, step := 0 }

/-! ### The deterministic mock environment of the end-to-end scenario:
`done = False` for the 500 interactions at in-episode steps 0-499,
`done = True` at step 500; reward always 1. -/

noncomputable def mock_reset : List ℝ := [0, 0, 0, 0]

/-- Oracle stream of the mock run: the environment terminates exactly at
the 501st interaction (index 500); the gradient kernel is taken as the
identity (its value is irrelevant to the recorded duration). -/
noncomputable def mockOracle (k : ℕ) : StepOracle :=
  { u := 1, randomAction := 0,
    envStep := fun _ => (mock_reset, 1, decide (k = 500)),
    resetState := mock_reset, sampleIdxs := [],
    gradUpdate := fun onl _ _ => onl }

/-- Initial state of the mock run. -/
noncomputable def mockInit : TrainerState := initState tieNet tieNet mock_reset

/-- Concrete state one interaction before a scheduled synchronization,
witness input for C4. -/
noncomputable def syncState : TrainerState :=
  { eps_count := 999, online := tieNet, target := tieNet, replay_memory := [],
    avg_window_steps := [], mode := Mode.training, state := mock_reset, step := 0 }

/-- Concrete state in the evaluation mode, witness input for C9. -/
noncomputable def evalState : TrainerState :=
  { eps_count := 7, online := tieNet, target := tieNet, replay_memory := [],
    avg_window_steps := [500], mode := Mode.evaluating, state := mock_reset,
    step := 0 }

/-- Folding `dq_append` over a stream keeps exactly the most recent
`C` elements: the result is the suffix of the whole stream obtained by
dropping the overflow. -/
theorem foldl_dq_append {α : Type} (C : ℕ) (hC : 0 < C) :
    ∀ (xs buf : List α), buf.length ≤ C →
      List.foldl (dq_append C) buf xs = (buf ++ xs).drop (buf.length + xs.length - C) := by
  intro xs
  induction xs with
  | nil =>
    intro buf hbuf
    simp [Nat.sub_eq_zero_of_le hbuf]
  | cons x xs ih =>
    intro buf hbuf
    by_cases h1 : buf.length < C
    · have hstep : dq_append C buf x = buf ++ [x] := by
        simp [dq_append, h1]
      have hlen : (buf ++ [x]).length ≤ C := by
        simpa using h1
      calc List.foldl (dq_append C) buf (x :: xs)
          = List.foldl (dq_append C) (buf ++ [x]) xs := by rw [List.foldl_cons, hstep]
        _ = ((buf ++ [x]) ++ xs).drop ((buf ++ [x]).length + xs.length - C) := ih _ hlen
        _ = (buf ++ x :: xs).drop (buf.length + (x :: xs).length - C) := by
            have h2 : (buf ++ [x]) ++ xs = buf ++ x :: xs := by simp
            have h3 : (buf ++ [x]).length + xs.length - C
                = buf.length + (x :: xs).length - C := by
              simp only [List.length_append, List.length_cons, List.length_nil]
              omega
            rw [h2, h3]
    · have heq : buf.length = C := le_antisymm hbuf (le_of_not_lt h1)
      have hne : buf ≠ [] := by
        intro h
        rw [h] at heq
        simp at heq
        omega
      obtain ⟨b, bs, rfl⟩ := List.exists_cons_of_ne_nil hne
      have hstep : dq_append C (b :: bs) x = bs ++ [x] := by
        have hbs : bs.length + 1 = C := by simpa using heq
        have hcond : ¬ (b :: bs : List α).length < C := by
          simp only [List.length_cons]
          omega
        simp only [dq_append, List.length_cons, List.tail_cons, ite_eq_right_iff]
        intro hlt
        exact absurd hlt (by omega)
      have hlen : (bs ++ [x]).length ≤ C := by
        have hbs : bs.length + 1 = C := by simpa using heq
        simp only [List.length_append, List.length_cons, List.length_nil]
        omega
      calc List.foldl (dq_append C) (b :: bs) (x :: xs)
          = List.foldl (dq_append C) (bs ++ [x]) xs := by rw [List.foldl_cons, hstep]
        _ = ((bs ++ [x]) ++ xs).drop ((bs ++ [x]).length + xs.length - C) := ih _ hlen
        _ = ((b :: bs) ++ x :: xs).drop ((b :: bs).length + (x :: xs).length - C) := by
            have hbs : bs.length + 1 = C := by simpa using heq
            have harith : (b :: bs : List α).length + (x :: xs).length - C
                = ((bs ++ [x]).length + xs.length - C) + 1 := by
              simp only [List.length_append, List.length_cons, List.length_nil]
              omega
            rw [harith]
            simp [List.append_assoc]

/-- C2: after appending `replay_capacity + k` transitions (`k ≥ 0`) to the
initially empty replay deque (`deque(maxlen=50000)`, line 78, appended at
line 101), the size equals the capacity, the contents are exactly the most
recent `replay_capacity` appends with the oldest `k` evicted in FIFO
order, and the size never exceeds the capacity at any point of the append
sequence. -/
theorem replay_buffer_capacity_invariant {α : Type} (xs : List α) (k : ℕ)
    (h : xs.length = replay_capacity + k) :
    (List.foldl (dq_append replay_capacity) [] xs).length = replay_capacity ∧
    List.foldl (dq_append replay_capacity) [] xs = xs.drop k ∧
    ∀ n : ℕ, (List.foldl (dq_append replay_capacity) [] (xs.take n)).length
      ≤ replay_capacity := by
  have hC : 0 < replay_capacity := by norm_num [replay_capacity]
  have hmain := foldl_dq_append replay_capacity hC xs [] (by simp)
  simp only [List.nil_append, List.length_nil, Nat.zero_add, zero_add] at hmain
  have hk : xs.length - replay_capacity = k := by omega
  have hdrop : List.foldl (dq_append replay_capacity) [] xs = xs.drop k := by
    rw [hmain, hk]
  refine ⟨?_, hdrop, ?_⟩
  · rw [hdrop]
    simp only [List.length_drop]
    omega
  · intro n
    have hpre := foldl_dq_append replay_capacity hC (xs.take n) [] (by simp)
    simp only [List.nil_append, List.length_nil, Nat.zero_add, zero_add] at hpre
    rw [hpre]
    simp only [List.length_drop, List.length_take]
    omega

/-- Witness for C2 at a concrete input: a stream of 50001 appends. -/
theorem replay_buffer_capacity_invariant_witness :
    (List.replicate (replay_capacity + 1) (0 : ℕ)).length = replay_capacity + 1 ∧
    ((List.foldl (dq_append replay_capacity) []
        (List.replicate (replay_capacity + 1) (0 : ℕ))).length = replay_capacity ∧
      List.foldl (dq_append replay_capacity) []
        (List.replicate (replay_capacity + 1) (0 : ℕ))
        = (List.replicate (replay_capacity + 1) (0 : ℕ)).drop 1 ∧
      ∀ n : ℕ, (List.foldl (dq_append replay_capacity) []
        ((List.replicate (replay_capacity + 1) (0 : ℕ)).take n)).length
        ≤ replay_capacity) :=
  ⟨by simp, replay_buffer_capacity_invariant _ 1 (by simp)⟩

theorem le_foldl_max : ∀ (xs : List ℝ) (a : ℝ), a ≤ xs.foldl max a := by
  intro xs
  induction xs with
  | nil => intro a; simp
  | cons x xs ih =>
    intro a
    calc a ≤ max a x := le_max_left a x
      _ ≤ (x :: xs).foldl max a := by simpa using ih (max a x)

theorem mem_le_foldl_max : ∀ (xs : List ℝ) (a x : ℝ), x ∈ xs → x ≤ xs.foldl max a := by
  intro xs
  induction xs with
  | nil => intro a x hx; simp at hx
  | cons y ys ih =>
    intro a x hx
    rcases List.mem_cons.mp hx with h | h
    · subst h
      calc x ≤ max a x := le_max_right a x
        _ ≤ ys.foldl max (max a x) := le_foldl_max ys (max a x)
        _ = (x :: ys).foldl max a := by simp
    · simpa using ih (max a y) x h

theorem foldl_max_mem : ∀ (xs : List ℝ) (a : ℝ), xs.foldl max a = a ∨ xs.foldl max a ∈ xs := by
  intro xs
  induction xs with
  | nil => intro a; left; rfl
  | cons x xs ih =>
    intro a
    rcases ih (max a x) with h | h
    · rcases max_choice a x with hm | hm
      · left
        simpa [hm] using h
      · right
        simp only [List.foldl_cons]
        rw [h, hm]
        exact List.mem_cons_self x xs
    · right
      simp only [List.foldl_cons]
      exact List.mem_cons_of_mem x h

theorem listMax_mem {l : List ℝ} (h : l ≠ []) : listMax l ∈ l := by
  match l with
  | x :: xs =>
    rcases foldl_max_mem xs x with h1 | h1
    · rw [listMax, h1]
      exact List.mem_cons_self x xs
    · rw [listMax]
      exact List.mem_cons_of_mem x h1

theorem le_listMax {l : List ℝ} {x : ℝ} (h : x ∈ l) : x ≤ listMax l := by
  match l with
  | y :: ys =>
    rcases List.mem_cons.mp h with h1 | h1
    · rw [listMax, h1.symm] at *
      exact le_foldl_max ys x
    · rw [listMax]
      exact mem_le_foldl_max ys y x h1

theorem firstIdxOf_spec (v : ℝ) :
    ∀ l : List ℝ, v ∈ l →
      firstIdxOf v l < l.length ∧ l.getD (firstIdxOf v l) 0 = v ∧
        ∀ j < firstIdxOf v l, l.getD j 0 ≠ v := by
  intro l
  induction l with
  | nil => intro h; simp at h
  | cons x xs ih =>
    intro h
    by_cases hx : x = v
    · refine ⟨by simp [firstIdxOf, hx], by simp [firstIdxOf, hx], ?_⟩
      intro j hj
      simp [firstIdxOf, hx] at hj
    · have hv : v ∈ xs := by
        rcases List.mem_cons.mp h with h1 | h1
        · exact absurd h1.symm hx
        · exact h1
      obtain ⟨ih1, ih2, ih3⟩ := ih hv
      refine ⟨by simp [firstIdxOf, hx]; omega, by simpa [firstIdxOf, hx] using ih2, ?_⟩
      intro j hj
      rw [firstIdxOf, if_neg hx] at hj
      match j with
      | 0 => simpa using hx
      | j + 1 =>
        have : j < firstIdxOf v xs := by omega
        simpa using ih3 j this

theorem firstIdxOf_eq (v : ℝ) :
    ∀ (l : List ℝ) (i : ℕ), i < l.length → l.getD i 0 = v →
      (∀ j < i, l.getD j 0 ≠ v) → firstIdxOf v l = i := by
  intro l
  induction l with
  | nil => intro i hi; simp at hi
  | cons x xs ih =>
    intro i hi hval hbefore
    match i with
    | 0 =>
      simp only [List.getD_cons_zero] at hval
      simp [firstIdxOf, hval]
    | i + 1 =>
      have hx : x ≠ v := by
        have := hbefore 0 (Nat.succ_pos i)
        simpa using this
      rw [firstIdxOf, if_neg hx]
      have hlen : i < xs.length := by simpa using hi
      have hv : xs.getD i 0 = v := by simpa using hval
      have hb : ∀ j < i, xs.getD j 0 ≠ v := by
        intro j hj
        have := hbefore (j + 1) (by omega)
        simpa using this
      rw [ih i hlen hv hb]

/-- C8: first-index tie-breaking of `act`.  If index `i` carries a
maximal output value of the network and every earlier index carries a
strictly smaller value — i.e. `i` is the lowest index attaining the
maximum, as in particular when two or more actions tie at the maximal
value — then `Network.act` (which applies `torch.argmax`, line 52)
deterministically returns `i`. -/
theorem act_greedy_first_index_tie_break (p : Network) (x : List ℝ) (i : ℕ)
    (hi : i < (p.forward x).length)
    (hmax : ∀ (j : ℕ) (hj : j < (p.forward x).length),
      (p.forward x).get ⟨j, hj⟩ ≤ (p.forward x).get ⟨i, hi⟩)
    (hlow : ∀ (j : ℕ) (hj : j < i),
      (p.forward x).get ⟨j, Nat.lt_trans hj hi⟩ < (p.forward x).get ⟨i, hi⟩) :
    p.act x = i := by
  have hne : p.forward x ≠ [] := by
    intro h
    rw [h] at hi
    simp at hi
  have hmem : listMax (p.forward x) ∈ p.forward x := listMax_mem hne
  have hgetmax : (p.forward x).get ⟨i, hi⟩ = listMax (p.forward x) := by
    apply le_antisymm
    · exact le_listMax (List.get_mem _ _ _)
    · obtain ⟨⟨j, hj⟩, hjv⟩ := List.get_of_mem hmem
      rw [← hjv]
      exact hmax j hj
  have hval : (p.forward x).getD i 0 = listMax (p.forward x) := by
    rw [List.getD_eq_getElem _ _ hi]
    rw [← hgetmax]
    simp
  have hbefore : ∀ j < i, (p.forward x).getD j 0 ≠ listMax (p.forward x) := by
    intro j hj
    rw [List.getD_eq_getElem _ _ (Nat.lt_trans hj hi)]
    have := hlow j hj
    rw [hgetmax] at this
    simp only [List.get_eq_getElem] at this
    exact ne_of_lt this
  have := firstIdxOf_eq (listMax (p.forward x)) (p.forward x) i hi hval hbefore
  simpa [Network.act, torch_argmax] using this

/-- Witness for C8: on the tied output `[1, 1]` the chosen action is 0. -/
theorem act_greedy_first_index_tie_break_witness : tieNet.act [] = 0 := by
  have hq : tieNet.forward [] = [1, 1] := by
    simp [Network.forward, linear, dot, tieNet]
  have hlen : (tieNet.forward []).length = 2 := by rw [hq]; rfl
  refine act_greedy_first_index_tie_break tieNet [] 0 (by omega) ?_ ?_
  · intro j hj
    have hj2 : j < 2 := by omega
    simp only [List.get_eq_getElem]
    simp only [hq]
    interval_cases j <;> simp
  · intro j hj
    exact absurd hj (Nat.not_lt_zero j)

theorem bellman_targets_map (tn : Network) :
    ∀ experiences : List Transition,
      bellman_targets tn experiences = experiences.map fun e =>
        e.reward + gamma * (1 - doneFlag e.done) * listMax (tn.forward e.next_state) := by
  intro experiences
  induction experiences with
  | nil => rfl
  | cons e es ih =>
    simp only [bellman_targets, target_q_values, optimal_q_values, List.map_cons,
      zipWith3] at *
    rw [ih]

/-- C1: for every transition of the sampled batch, the computed Bellman
regression target is `reward + gamma * (1 - done_flag) * max_a
target.forward(next_state)` with `done_flag ∈ {0, 1}`; and whenever a
transition has `reward = 1` and `done = true`, its target is exactly 1,
whatever the target network outputs on the next state. -/
theorem bellman_target_correct (tn : Network) (experiences : List Transition)
    (i : ℕ) (hi : i < experiences.length) :
    (bellman_targets tn experiences).getD i 0
      = (experiences.getD i default).reward
        + gamma * (1 - doneFlag (experiences.getD i default).done)
          * listMax (tn.forward (experiences.getD i default).next_state) ∧
    (doneFlag (experiences.getD i default).done = 0 ∨
      doneFlag (experiences.getD i default).done = 1) ∧
    ((experiences.getD i default).reward = 1 →
      (experiences.getD i default).done = true →
      (bellman_targets tn experiences).getD i 0 = 1) := by
  have hmap := bellman_targets_map tn experiences
  have hlen : (bellman_targets tn experiences).length = experiences.length := by
    rw [hmap]
    simp
  have hval : (bellman_targets tn experiences).getD i 0
      = (experiences.getD i default).reward
        + gamma * (1 - doneFlag (experiences.getD i default).done)
          * listMax (tn.forward (experiences.getD i default).next_state) := by
    rw [List.getD_eq_getElem _ _ (by omega), List.getD_eq_getElem _ _ hi]
    simp only [hmap, List.getElem_map]
  refine ⟨hval, ?_, ?_⟩
  · cases h : (experiences.getD i default).done <;> simp [doneFlag, h]
  · intro hr hd
    rw [hval, hr, hd]
    simp [doneFlag]

/-- Witness for C1: on a singleton batch holding a terminal transition
with reward 1, the computed target is exactly 1 for any target network
(instantiated at `tieNet`). -/
theorem bellman_target_correct_witness :
    0 < ([terminalTransition] : List Transition).length ∧
      (bellman_targets tieNet [terminalTransition]).getD 0 0 = 1 := by
  have h := bellman_target_correct tieNet [terminalTransition] 0 (by simp)
  exact ⟨by simp, h.2.2 rfl rfl⟩

theorem sample_eq_map_get {α : Type} (population : List α) :
    ∀ (idxs : List ℕ) (hbound : ∀ i ∈ idxs, i < population.length),
      sample population idxs
        = (idxs.pmap (fun i h => (⟨i, h⟩ : Fin population.length)) hbound).map
            population.get := by
  intro idxs
  induction idxs with
  | nil => intro hbound; rfl
  | cons i is ih =>
    intro hbound
    have hi : i < population.length := hbound i (List.mem_cons_self i is)
    have hrest : ∀ j ∈ is, j < population.length := fun j hj =>
      hbound j (List.mem_cons_of_mem i hj)
    simp only [sample, List.filterMap_cons, List.getElem?_eq_getElem hi, List.pmap,
      List.map_cons]
    have hs := ih hrest
    simp only [sample] at hs
    rw [hs]
    rfl

theorem trainStep_eps_count (o : StepOracle) (s : TrainerState) :
    (trainStep o s).eps_count = s.eps_count + 1 := by
  simp only [trainStep]
  split
  · split <;> rfl
  · rfl

theorem trainStep_online (o : StepOracle) (s : TrainerState) :
    (trainStep o s).online
      = if batch_size ≤ (appendedMemory o s).length
        then o.gradUpdate s.online (sample (appendedMemory o s) o.sampleIdxs) s.target
        else s.online := by
  simp only [trainStep]
  split
  · split <;> rfl
  · rfl

theorem trainStep_target (o : StepOracle) (s : TrainerState) :
    (trainStep o s).target
      = if (s.eps_count + 1) % sync_interval = 0
        then (trainStep o s).online
        else s.target := by
  rw [trainStep_online]
  simp only [trainStep]
  split
  · split <;> rfl
  · rfl

theorem trainStep_not_done (o : StepOracle) (s : TrainerState)
    (hdone : (envResult o s).2.2 = false) :
    (trainStep o s).step = s.step + 1 ∧ (trainStep o s).mode = Mode.training ∧
      (trainStep o s).avg_window_steps = s.avg_window_steps := by
  simp only [trainStep, hdone]
  exact ⟨rfl, rfl, rfl⟩

theorem trainStep_done_window (o : StepOracle) (s : TrainerState)
    (hdone : (envResult o s).2.2 = true) :
    (trainStep o s).avg_window_steps = pushWindow s.avg_window_steps s.step := by
  simp only [trainStep, hdone, if_true]
  split <;> rfl

theorem trainerStep_of_training (o : StepOracle) (s : TrainerState)
    (hmode : s.mode = Mode.training) : trainerStep o s = trainStep o s := by
  unfold trainerStep
  rw [hmode]

/-- C4: immediately after initialization (line 69) and immediately after
every scheduled synchronization (lines 150-152, performed when the
incremented step counter is a multiple of `sync_interval = 1000`, after
the training update of the same iteration), the target network's
parameters equal the online network's parameters exactly, so the two
networks evaluate identically on every probe state — a copy, not an
interpolation. -/
theorem target_sync_exact :
    (∀ (online_init target_init : Network) (s0 : List ℝ),
      (initState online_init target_init s0).target
          = (initState online_init target_init s0).online ∧
      ∀ x : List ℝ, ((initState online_init target_init s0).target).forward x
          = ((initState online_init target_init s0).online).forward x) ∧
    (∀ (o : StepOracle) (s : TrainerState), s.mode = Mode.training →
      (s.eps_count + 1) % sync_interval = 0 →
      (trainerStep o s).target = (trainerStep o s).online ∧
      ∀ x : List ℝ, ((trainerStep o s).target).forward x
          = ((trainerStep o s).online).forward x) := by
  constructor
  · intro onl tgt s0
    exact ⟨rfl, fun x => rfl⟩
  · intro o s hmode hsync
    rw [trainerStep_of_training o s hmode]
    have htarget : (trainStep o s).target = (trainStep o s).online := by
      rw [trainStep_target, if_pos hsync]
    exact ⟨htarget, fun x => by rw [htarget]⟩

/-- Witness for C4: a synchronization step at counter value 999 → 1000. -/
theorem target_sync_exact_witness :
    syncState.mode = Mode.training ∧ (syncState.eps_count + 1) % sync_interval = 0 ∧
    ((trainerStep (mockOracle 0) syncState).target
        = (trainerStep (mockOracle 0) syncState).online ∧
      ∀ x : List ℝ, ((trainerStep (mockOracle 0) syncState).target).forward x
          = ((trainerStep (mockOracle 0) syncState).online).forward x) :=
  ⟨rfl, by norm_num [syncState, sync_interval],
    target_sync_exact.2 (mockOracle 0) syncState rfl
      (by norm_num [syncState, sync_interval])⟩

/-- C6 (amended): each training update leaves every target-network
parameter value unchanged — outside the scheduled synchronization the
target after `trainStep` is exactly the target before — and the online
parameters change only through the single optimizer update of
lines 146-148, whose optimizer holds the online network's parameters
only; the Bellman target value is built from the target network alone
(line 139), so it is a constant of the online parameters.  However,
contrary to the original claim, the target network is evaluated with
gradient recording enabled (line 132 has no `no_grad`/`detach`), so the
backward pass also computes — but never applies — gradients for the
target network's parameters. -/
theorem training_update_frame :
    (∀ (o : StepOracle) (s : TrainerState),
      (s.eps_count + 1) % sync_interval ≠ 0 → (trainStep o s).target = s.target) ∧
    (∀ (o : StepOracle) (s : TrainerState),
      (trainStep o s).online = s.online ∨
        (trainStep o s).online
          = o.gradUpdate s.online (sample (appendedMemory o s) o.sampleIdxs) s.target) ∧
    optimizer_nets = {NetRef.online_net} ∧
    NetRef.target_net ∉ optimizer_nets ∧
    NetRef.target_net ∈ backward_grad_nets := by
  refine ⟨?_, ?_, rfl, by decide, by decide⟩
  · intro o s hsync
    rw [trainStep_target, if_neg hsync]
  · intro o s
    rw [trainStep_online]
    by_cases h : batch_size ≤ (appendedMemory o s).length
    · right
      rw [if_pos h]
    · left
      rw [if_neg h]

/-- Witness for C6's amended theorem: a non-synchronization step. -/
theorem training_update_frame_witness :
    (mockInit.eps_count + 1) % sync_interval ≠ 0 ∧
    (trainStep (mockOracle 0) mockInit).target = mockInit.target :=
  ⟨by norm_num [mockInit, initState, sync_interval],
    training_update_frame.1 (mockOracle 0) mockInit
      (by norm_num [mockInit, initState, sync_interval])⟩

/-- Counterexample to C6 as stated: the claim requires the Bellman
target to be computed with no gradient flowing through the target
network, i.e. a no-gradient / detached evaluation of `target_net`.  The
code has neither `torch.no_grad()` nor `.detach()`: line 132 applies
`target_net` inside the recording autograd context, so the backward pass
of line 147 computes gradients for the target network's parameters —
gradient does flow through the target network. -/
theorem target_network_not_detached : NetRef.target_net ∈ backward_grad_nets := by
  decide

/-- C5: the epsilon schedule is the pure function
`decay(start, end, rate, step) = end + (start - end) * exp(-rate * step)`
(line 61), and in particular `decay(s, e, r, 0) = s` for all `s`, `e`,
`r`.  As a Lean function it is side-effect free by construction. -/
theorem decay_formula_and_boundary :
    (∀ (s e r : ℝ) (n : ℕ), decay s e r n = e + (s - e) * Real.exp (-(r * n))) ∧
    (∀ s e r : ℝ, decay s e r 0 = s) := by
  constructor
  · intro s e r n
    unfold decay
    have harg : (-1 : ℝ) * r * (n : ℝ) = -(r * n) := by ring
    rw [harg]
  · intro s e r
    unfold decay
    simp only [Nat.cast_zero, mul_zero, Real.exp_zero, mul_one]
    ring

/-- C10: `eps_count` is incremented (line 86) before `decay` is
consulted (line 87): along any run whose first `n` iterations are
training-mode iterations, starting from the initial counter 0, the
counter after `n` iterations is `n`, the epsilon consulted at the
`(k+1)`-st environment interaction is `decay(epsilon_start,
epsilon_end, epsilon_decayrate, k+1)` — so the schedule is never
consulted at step 0 — and every consulted epsilon is strictly below
`epsilon_start = 1`. -/
theorem epsilon_uses_incremented_counter (os : ℕ → StepOracle) (s0 : TrainerState)
    (h0 : s0.eps_count = 0) (n : ℕ)
    (hmode : ∀ k < n, (iterateSteps os k s0).mode = Mode.training) :
    (iterateSteps os n s0).eps_count = n ∧
    ∀ k < n, trainStepEpsilon (iterateSteps os k s0)
        = decay epsilon_start epsilon_end epsilon_decayrate (k + 1) ∧
      trainStepEpsilon (iterateSteps os k s0) < 1 := by
  have hcount : ∀ m ≤ n, (iterateSteps os m s0).eps_count = m := by
    intro m
    induction m with
    | zero => intro _; simpa [iterateSteps] using h0
    | succ m ih =>
      intro hm
      have hmlt : m < n := lt_of_lt_of_le (Nat.lt_succ_self m) hm
      have hunf : iterateSteps os (m + 1) s0
          = trainStep (os m) (iterateSteps os m s0) := by
        simp only [iterateSteps]
        exact trainerStep_of_training _ _ (hmode m hmlt)
      rw [hunf, trainStep_eps_count, ih (le_of_lt hmlt)]
  refine ⟨hcount n le_rfl, ?_⟩
  intro k hk
  have hepsk : trainStepEpsilon (iterateSteps os k s0)
      = decay epsilon_start epsilon_end epsilon_decayrate (k + 1) := by
    unfold trainStepEpsilon
    rw [hcount k (le_of_lt hk)]
  refine ⟨hepsk, ?_⟩
  rw [hepsk]
  unfold decay epsilon_start epsilon_end epsilon_decayrate
  have hcast : (0 : ℝ) < ((k + 1 : ℕ) : ℝ) := by
    exact_mod_cast Nat.succ_pos k
  have hexp1 : Real.exp (-1 * 0.003 * ((k + 1 : ℕ) : ℝ)) < 1 := by
    rw [Real.exp_lt_one_iff]
    nlinarith
  have hexp0 : 0 < Real.exp (-1 * 0.003 * ((k + 1 : ℕ) : ℝ)) := Real.exp_pos _
  nlinarith

/-- Witness for C10: the first interaction of the mock run. -/
theorem epsilon_uses_incremented_counter_witness :
    mockInit.eps_count = 0 ∧
    ((iterateSteps mockOracle 1 mockInit).eps_count = 1 ∧
      ∀ k < 1, trainStepEpsilon (iterateSteps mockOracle k mockInit)
          = decay epsilon_start epsilon_end epsilon_decayrate (k + 1) ∧
        trainStepEpsilon (iterateSteps mockOracle k mockInit) < 1) :=
  ⟨rfl, epsilon_uses_incremented_counter mockOracle mockInit rfl 1 (by
    intro k hk
    interval_cases k
    rfl)⟩

/-- C9: once the convergence criterion holds at an episode end the loop
enters the evaluating mode (lines 160-162); the evaluating mode is
absorbing — any number of further iterations stays evaluating and
leaves the online parameters, the target parameters, the replay memory,
the duration window and the step counter untouched — and an evaluating
iteration does nothing but act greedily and step or reset the
environment (lines 163-170): no gradient update, no buffer append, no
synchronization, ever again. -/
theorem evaluating_is_terminal :
    (∀ (o : StepOracle) (s : TrainerState), s.mode = Mode.training →
      (envResult o s).2.2 = true →
      convergence_threshold ≤ listAvg (pushWindow s.avg_window_steps s.step) →
      (trainerStep o s).mode = Mode.evaluating) ∧
    (∀ (os : ℕ → StepOracle) (n : ℕ) (s : TrainerState),
      s.mode = Mode.evaluating →
      (iterateSteps os n s).mode = Mode.evaluating ∧
      (iterateSteps os n s).online = s.online ∧
      (iterateSteps os n s).target = s.target ∧
      (iterateSteps os n s).replay_memory = s.replay_memory ∧
      (iterateSteps os n s).avg_window_steps = s.avg_window_steps ∧
      (iterateSteps os n s).eps_count = s.eps_count) ∧
    (∀ (o : StepOracle) (s : TrainerState), s.mode = Mode.evaluating →
      trainerStep o s = { s with state :=
        if (o.envStep (s.online.act s.state)).2.2 then o.resetState
        else (o.envStep (s.online.act s.state)).1 }) := by
  refine ⟨?_, ?_, ?_⟩
  · intro o s hmode hdone hthr
    rw [trainerStep_of_training o s hmode]
    simp only [trainStep, hdone, if_true, hthr, if_pos]
  · intro os n
    induction n with
    | zero =>
      intro s hs
      exact ⟨hs, rfl, rfl, rfl, rfl, rfl⟩
    | succ n ih =>
      intro s hs
      obtain ⟨h1, h2, h3, h4, h5, h6⟩ := ih s hs
      have hunf : iterateSteps os (n + 1) s
          = evalStep (os n) (iterateSteps os n s) := by
        simp only [iterateSteps]
        unfold trainerStep
        rw [h1]
      rw [hunf]
      exact ⟨h1, h2, h3, h4, h5, h6⟩
  · intro o s hmode
    have h1 : trainerStep o s = evalStep o s := by
      unfold trainerStep
      rw [hmode]
    rw [h1]
    rfl

/-- Witness for C9: three evaluating iterations from a concrete
evaluating state. -/
theorem evaluating_is_terminal_witness :
    evalState.mode = Mode.evaluating ∧
    ((iterateSteps mockOracle 3 evalState).mode = Mode.evaluating ∧
      (iterateSteps mockOracle 3 evalState).online = evalState.online ∧
      (iterateSteps mockOracle 3 evalState).target = evalState.target ∧
      (iterateSteps mockOracle 3 evalState).replay_memory = evalState.replay_memory ∧
      (iterateSteps mockOracle 3 evalState).avg_window_steps = evalState.avg_window_steps ∧
      (iterateSteps mockOracle 3 evalState).eps_count = evalState.eps_count) :=
  ⟨rfl, evaluating_is_terminal.2.1 mockOracle 3 evalState rfl⟩

theorem mock_run_invariant : ∀ k ≤ 500,
    (iterateSteps mockOracle k mockInit).step = k ∧
    (iterateSteps mockOracle k mockInit).mode = Mode.training ∧
    (iterateSteps mockOracle k mockInit).avg_window_steps = [] := by
  intro k
  induction k with
  | zero => intro _; exact ⟨rfl, rfl, rfl⟩
  | succ k ih =>
    intro hk
    obtain ⟨hstep, hmode, havg⟩ := ih (by omega)
    have hdone : (envResult (mockOracle k) (iterateSteps mockOracle k mockInit)).2.2
        = false := by
      have henv : envResult (mockOracle k) (iterateSteps mockOracle k mockInit)
          = (mock_reset, 1, decide (k = 500)) := rfl
      rw [henv]
      show decide (k = 500) = false
      simp only [decide_eq_false_iff_not]
      omega
    have hunf : iterateSteps mockOracle (k + 1) mockInit
        = trainStep (mockOracle k) (iterateSteps mockOracle k mockInit) := by
      simp only [iterateSteps]
      exact trainerStep_of_training _ _ hmode
    obtain ⟨p1, p2, p3⟩ := trainStep_not_done (mockOracle k) _ hdone
    refine ⟨?_, ?_, ?_⟩
    · rw [hunf, p1, hstep]
    · rw [hunf]
      exact p2
    · rw [hunf, p3, havg]

/-- C7: on the deterministic mock environment — `done = False` for the
500 interactions at in-episode steps 0..499, `done = True` at step 500,
reward always 1 — the control loop records an episode duration of
exactly 500 into the episode-duration window when the episode ends. -/
theorem mock_episode_duration :
    (iterateSteps mockOracle 501 mockInit).avg_window_steps = [500] := by
  obtain ⟨hstep, hmode, havg⟩ := mock_run_invariant 500 le_rfl
  have hdone : (envResult (mockOracle 500) (iterateSteps mockOracle 500 mockInit)).2.2
      = true := by
    have henv : envResult (mockOracle 500) (iterateSteps mockOracle 500 mockInit)
        = (mock_reset, 1, decide ((500 : ℕ) = 500)) := rfl
    rw [henv]
    show decide ((500 : ℕ) = 500) = true
    simp
  have hunf : iterateSteps mockOracle (500 + 1) mockInit
      = trainStep (mockOracle 500) (iterateSteps mockOracle 500 mockInit) := by
    show trainerStep (mockOracle 500) (iterateSteps mockOracle 500 mockInit)
        = trainStep (mockOracle 500) (iterateSteps mockOracle 500 mockInit)
    exact trainerStep_of_training _ _ hmode
  have h501 : (501 : ℕ) = 500 + 1 := by norm_num
  rw [h501, hunf, trainStep_done_window _ _ hdone, havg, hstep]
  norm_num [pushWindow, window_size]

/-- C3: `random.sample(replay_memory, N)` (line 107), drawing at `N`
distinct buffer positions, returns exactly `N` entries forming a
sub-permutation of the buffer's current contents — so every returned
element is a member of the buffer and `N` cannot exceed the buffer's
size `M` — and the trainer performs no update (hence never samples)
when the buffer holds fewer than `batch_size = 32` transitions
(line 106). -/
theorem sample_without_replacement :
    (∀ (α : Type) (population : List α) (idxs : List ℕ) (N : ℕ),
      idxs.Nodup → (∀ i ∈ idxs, i < population.length) → idxs.length = N →
      (sample population idxs).length = N ∧
      List.Subperm (sample population idxs) population ∧
      (∀ x ∈ sample population idxs, x ∈ population) ∧
      N ≤ population.length) ∧
    (∀ (o : StepOracle) (s : TrainerState),
      (appendedMemory o s).length < batch_size →
      (trainStep o s).online = s.online) := by
  constructor
  · intro α population idxs N hnd hbound hlen
    have hmap := sample_eq_map_get population idxs hbound
    have hnodup : (idxs.pmap (fun i h => (⟨i, h⟩ : Fin population.length)) hbound).Nodup := by
      refine List.Nodup.pmap ?_ hnd
      intro a ha b hb hfab
      exact congrArg Fin.val hfab
    have hsubfin : List.Subperm
        (idxs.pmap (fun i h => (⟨i, h⟩ : Fin population.length)) hbound)
        (List.finRange population.length) :=
      List.Nodup.subperm hnodup (fun a _ => List.mem_finRange a)
    obtain ⟨l, hl1, hl2⟩ := hsubfin
    have hsub : List.Subperm (sample population idxs) population := by
      rw [hmap]
      refine ⟨l.map population.get, hl1.map population.get, ?_⟩
      have hsl := hl2.map population.get
      rwa [List.finRange_map_get] at hsl
    have hslen : (sample population idxs).length = N := by
      rw [hmap]
      simp [hlen]
    refine ⟨hslen, hsub, fun x hx => hsub.subset hx, ?_⟩
    rw [← hslen]
    exact hsub.length_le
  · intro o s h
    rw [trainStep_online, if_neg (by omega)]

/-- Witness for C3: sampling positions 0 and 1 of a two-element buffer. -/
theorem sample_without_replacement_witness :
    ([0, 1] : List ℕ).Nodup ∧
    ((sample [10, 20] [0, 1]).length = 2 ∧
      List.Subperm (sample [10, 20] [0, 1]) [10, 20] ∧
      (∀ x ∈ sample [10, 20] [0, 1], x ∈ ([10, 20] : List ℕ)) ∧
      2 ≤ ([10, 20] : List ℕ).length) :=
  ⟨by decide,
    sample_without_replacement.1 ℕ [10, 20] [0, 1] 2 (by decide) (by decide) rfl⟩

end DQN
